import Mathlib

/-!
Verification of the core of `safesql.go` (package `main` of echojc/safesql),
a static analyzer that checks that every call into `database/sql` passes a
compile-time-constant query string.

The development shallowly embeds the four functions of the source:

* `whitespaceRegexp`-based normalization (line 22 and lines 211-213):
  `strings.TrimSpace(whitespaceRegexp.ReplaceAllString(query, " "))` where the
  regexp is `([\s"]|\\n|\\t|\\r)+`.  Go's RE2 class `\s` is `[\t\n\f\r ]`, and
  `strings.TrimSpace` trims Unicode white space.  The replace-all of the
  greedy `(...)+` substitutes one space for every maximal run of characters of
  the class `[\s"]` and of two-character sequences backslash-n, backslash-t,
  backslash-r.
* `FuncHasQuery` / `FindQueryMethods` (lines 116-160): the sink catalog.
* `FindMains` (lines 164-174): entry-point collection.
* `FindNonConstCalls` (lines 178-219): the call-graph walk, with the
  forwarding exclusion, receiver-offset handling, the `panic` on an argument
  count mismatch (modelled as `Except.error`), and the classification of the
  selected argument into `bad` call sites and normalized constant `queries`.

Strings are modelled as `List Char`.
-/

/-- Characters matched by the regexp class `[\s"]`: RE2 white space
(tab, newline, form feed, carriage return, space) and the double quote. -/
def isWsClass (c : Char) : Bool :=
  c = ' ' || c = '\t' || c = '\n' || c = '\r' || c = '\x0c' || c = '"'

/-- The letters that follow a backslash in the regexp alternatives
`\\n`, `\\t`, `\\r`. -/
def isEscLetter (c : Char) : Bool :=
  c = 'n' || c = 't' || c = 'r'

/-- Whether the regexp matches at the head of the
character list: either the head character is in the class, or the list starts
with a backslash followed by `n`, `t` or `r`. -/
def startsRun : List Char → Bool
  | [] => false
  | [c] => isWsClass c
  | c :: d :: _ => isWsClass c || (c = '\\' && isEscLetter d)

/-- `whitespaceRegexp.ReplaceAllString query " "`: substitute a single space
for every maximal run matched by the (greedy) regexp.  The single space of a
collapsed run is emitted when the run ends; characters outside runs are
copied. -/
def replaceRuns : List Char → List Char
  | [] => []
  | [c] => if isWsClass c then [' '] else [c]
  | c :: d :: rest =>
    if isWsClass c then
      if startsRun (d :: rest) then replaceRuns (d :: rest)
      else ' ' :: replaceRuns (d :: rest)
    else if c = '\\' && isEscLetter d then
      if startsRun rest then replaceRuns rest
      else ' ' :: replaceRuns rest
    else c :: replaceRuns (d :: rest)

/-- Characters trimmed by Go's `strings.TrimSpace` (`unicode.IsSpace`): the
White_Space Unicode property. -/
def isGoSpace (c : Char) : Bool :=
  (9 ≤ c.toNat && c.toNat ≤ 13) || c.toNat = 32 || c.toNat = 0x85 ||
  c.toNat = 0xa0 || c.toNat = 0x1680 ||
  (0x2000 ≤ c.toNat && c.toNat ≤ 0x200a) || c.toNat = 0x2028 ||
  c.toNat = 0x2029 || c.toNat = 0x202f || c.toNat = 0x205f ||
  c.toNat = 0x3000

/-- `strings.TrimSpace`: drop leading and trailing white space. -/
def trimSpace (l : List Char) : List Char :=
  ((l.dropWhile isGoSpace).reverse.dropWhile isGoSpace).reverse

/-- The full normalization of a constant query text performed at
src/safesql.go lines 211-213. -/
def cleanQuery (l : List Char) : List Char :=
  trimSpace (replaceRuns l)

theorem startsRun_one (c : Char) : startsRun [c] = isWsClass c := rfl

theorem startsRun_cons2 (c d : Char) (r : List Char) :
    startsRun (c :: d :: r) = (isWsClass c || (c = '\\' && isEscLetter d)) :=
  rfl

/-- Head of the list is one of the escape letters `n`, `t`, `r`. -/
def headIsEsc : List Char → Bool
  | [] => false
  | c :: _ => isEscLetter c

/-- Strings on which the regexp replacement acts as the identity: every
character of the class is a single space that is not followed by another run,
and no two-character escape sequence occurs. -/
def noRun : List Char → Bool
  | [] => true
  | c :: rest =>
    (if isWsClass c then c = ' ' && !startsRun rest
     else if c = '\\' then !headIsEsc rest
     else true) && noRun rest

theorem headIsEsc_replaceRuns (m : List Char) :
    headIsEsc (replaceRuns m) = true →
      headIsEsc m = true ∧ startsRun m = false := by
  match m with
  | [] => simp [replaceRuns, headIsEsc]
  | [c] =>
    cases h : isWsClass c with
    | true =>
      intro hh
      rw [show replaceRuns [c] = [' '] from by simp [replaceRuns, h]] at hh
      exact absurd hh (by decide)
    | false =>
      intro hh
      rw [show replaceRuns [c] = [c] from by simp [replaceRuns, h]] at hh
      exact ⟨hh, by simp [startsRun_one, h]⟩
  | c :: d :: rest =>
    cases h1 : isWsClass c with
    | true =>
      cases h2 : startsRun (d :: rest) with
      | true =>
        intro hh
        rw [show replaceRuns (c :: d :: rest) = replaceRuns (d :: rest) from by
          simp [replaceRuns, h1, h2]] at hh
        have := headIsEsc_replaceRuns (d :: rest) hh
        rw [h2] at this
        exact absurd this.2 (by simp)
      | false =>
        intro hh
        rw [show replaceRuns (c :: d :: rest) = ' ' :: replaceRuns (d :: rest)
          from by simp [replaceRuns, h1, h2]] at hh
        exact absurd hh (by simp [headIsEsc]; decide)
    | false =>
      cases h2 : (c = '\\' && isEscLetter d) with
      | true =>
        cases h3 : startsRun rest with
        | true =>
          intro hh
          rw [show replaceRuns (c :: d :: rest) = replaceRuns rest from by
            simp only [replaceRuns, h1, Bool.false_eq_true, if_false, h2,
              if_true, h3]] at hh
          have := headIsEsc_replaceRuns rest hh
          rw [h3] at this
          exact absurd this.2 (by simp)
        | false =>
          intro hh
          rw [show replaceRuns (c :: d :: rest) = ' ' :: replaceRuns rest
            from by simp only [replaceRuns, h1, Bool.false_eq_true, if_false,
              h2, if_true, h3]] at hh
          exact absurd hh (by simp [headIsEsc]; decide)
      | false =>
        intro hh
        rw [show replaceRuns (c :: d :: rest) = c :: replaceRuns (d :: rest)
          from by simp only [replaceRuns, h1, Bool.false_eq_true, if_false,
            h2]] at hh
        refine ⟨hh, ?_⟩
        rw [startsRun_cons2, h1, h2]
        rfl
termination_by m.length
decreasing_by all_goals (simp; try omega)

theorem startsRun_replaceRuns (m : List Char)
    (h : startsRun (replaceRuns m) = true) : startsRun m = true := by
  match m with
  | [] => simp [replaceRuns, startsRun] at h
  | [c] =>
    cases hc : isWsClass c with
    | true => simp [startsRun_one, hc]
    | false =>
      rw [show replaceRuns [c] = [c] from by simp [replaceRuns, hc]] at h
      exact h
  | c :: d :: rest =>
    cases h1 : isWsClass c with
    | true => simp [startsRun_cons2, h1]
    | false =>
      cases h2 : (c = '\\' && isEscLetter d) with
      | true => simp [startsRun_cons2, h2]
      | false =>
        rw [show replaceRuns (c :: d :: rest) = c :: replaceRuns (d :: rest)
          from by simp only [replaceRuns, h1, Bool.false_eq_true, if_false,
            h2]] at h
        match hX : replaceRuns (d :: rest) with
        | [] =>
          rw [hX, startsRun_one, h1] at h
          exact absurd h (by simp)
        | e :: X' =>
          rw [hX, startsRun_cons2, h1] at h
          simp only [Bool.false_or, Bool.and_eq_true, decide_eq_true_eq] at h
          obtain ⟨hb, he⟩ := h
          have hesc : headIsEsc (replaceRuns (d :: rest)) = true := by
            rw [hX]; exact he
          obtain ⟨hd, -⟩ := headIsEsc_replaceRuns _ hesc
          simp only [headIsEsc] at hd
          subst hb
          simp [hd] at h2

theorem noRun_cons (c : Char) (rest : List Char) :
    noRun (c :: rest) =
      ((if isWsClass c then decide (c = ' ') && !startsRun rest
        else if c = '\\' then !headIsEsc rest else true) && noRun rest) :=
  rfl

theorem noRun_tail {c : Char} {rest : List Char} (h : noRun (c :: rest) = true) :
    noRun rest = true := by
  rw [noRun_cons] at h
  exact (Bool.and_eq_true _ _ |>.mp h).2

theorem noRun_replaceRuns (m : List Char) : noRun (replaceRuns m) = true := by
  match m with
  | [] => simp [replaceRuns, noRun]
  | [c] =>
    cases h : isWsClass c with
    | true =>
      rw [show replaceRuns [c] = [' '] from by simp [replaceRuns, h]]
      decide
    | false =>
      rw [show replaceRuns [c] = [c] from by simp [replaceRuns, h]]
      by_cases hb : c = '\\'
      · subst hb; decide
      · simp [noRun, h, hb, headIsEsc]
  | c :: d :: rest =>
    cases h1 : isWsClass c with
    | true =>
      cases h2 : startsRun (d :: rest) with
      | true =>
        rw [show replaceRuns (c :: d :: rest) = replaceRuns (d :: rest) from by
          simp [replaceRuns, h1, h2]]
        exact noRun_replaceRuns (d :: rest)
      | false =>
        rw [show replaceRuns (c :: d :: rest) = ' ' :: replaceRuns (d :: rest)
          from by simp [replaceRuns, h1, h2]]
        have hX : startsRun (replaceRuns (d :: rest)) = false := by
          cases hX : startsRun (replaceRuns (d :: rest)) with
          | false => rfl
          | true => rw [startsRun_replaceRuns _ hX] at h2; exact h2
        simp [noRun_cons, hX, noRun_replaceRuns (d :: rest)]
    | false =>
      cases h2 : (c = '\\' && isEscLetter d) with
      | true =>
        cases h3 : startsRun rest with
        | true =>
          rw [show replaceRuns (c :: d :: rest) = replaceRuns rest from by
            simp only [replaceRuns, h1, Bool.false_eq_true, if_false, h2,
              if_true, h3]]
          exact noRun_replaceRuns rest
        | false =>
          rw [show replaceRuns (c :: d :: rest) = ' ' :: replaceRuns rest
            from by simp only [replaceRuns, h1, Bool.false_eq_true, if_false,
              h2, if_true, h3]]
          have hX : startsRun (replaceRuns rest) = false := by
            cases hX : startsRun (replaceRuns rest) with
            | false => rfl
            | true => rw [startsRun_replaceRuns _ hX] at h3; exact h3
          simp [noRun_cons, hX, noRun_replaceRuns rest]
      | false =>
        rw [show replaceRuns (c :: d :: rest) = c :: replaceRuns (d :: rest)
          from by simp only [replaceRuns, h1, Bool.false_eq_true, if_false,
            h2]]
        rw [noRun_cons, h1]
        simp only [Bool.false_eq_true, if_false]
        have hcond : (if c = '\\' then !headIsEsc (replaceRuns (d :: rest))
            else true) = true := by
          by_cases hb : c = '\\'
          · simp only [hb, if_true]
            cases hE : headIsEsc (replaceRuns (d :: rest)) with
            | false => rfl
            | true =>
              obtain ⟨hd, -⟩ := headIsEsc_replaceRuns _ hE
              simp only [headIsEsc] at hd
              rw [hb, hd] at h2
              simp at h2
          · simp [hb]
        rw [hcond]
        simp only [Bool.true_and]
        exact noRun_replaceRuns (d :: rest)
termination_by m.length
decreasing_by all_goals (simp; try omega)

theorem replaceRuns_of_noRun (m : List Char) (h : noRun m = true) :
    replaceRuns m = m := by
  match m with
  | [] => simp [replaceRuns]
  | [c] =>
    cases hc : isWsClass c with
    | true =>
      rw [noRun_cons, hc] at h
      simp only [if_true, startsRun, Bool.not_false, Bool.and_true, noRun,
        decide_eq_true_eq] at h
      simp [replaceRuns, hc, h]
    | false => simp [replaceRuns, hc]
  | c :: d :: rest =>
    have htail : noRun (d :: rest) = true := noRun_tail h
    cases h1 : isWsClass c with
    | true =>
      rw [noRun_cons, h1] at h
      simp only [if_true, Bool.and_eq_true, Bool.not_eq_true',
        decide_eq_true_eq] at h
      obtain ⟨⟨hsp, hns⟩, -⟩ := h
      rw [show replaceRuns (c :: d :: rest) = ' ' :: replaceRuns (d :: rest)
        from by simp [replaceRuns, h1, hns]]
      rw [replaceRuns_of_noRun (d :: rest) htail, hsp]
    | false =>
      have h2 : (c = '\\' && isEscLetter d) = false := by
        by_cases hb : c = '\\'
        · rw [noRun_cons, h1] at h
          simp only [Bool.false_eq_true, if_false, hb, if_true,
            Bool.and_eq_true, Bool.not_eq_true'] at h
          simp only [headIsEsc] at h
          simp [h.1]
        · simp [hb]
      rw [show replaceRuns (c :: d :: rest) = c :: replaceRuns (d :: rest)
        from by simp only [replaceRuns, h1, Bool.false_eq_true, if_false, h2]]
      rw [replaceRuns_of_noRun (d :: rest) htail]
termination_by m.length
decreasing_by all_goals (simp; try omega)

theorem startsRun_append {x y : List Char} (h : startsRun x = true) :
    startsRun (x ++ y) = true := by
  match x with
  | [] => simp [startsRun] at h
  | [c] =>
    rw [startsRun_one] at h
    match y with
    | [] => simpa [startsRun_one] using h
    | e :: y' => simp [startsRun_cons2, h]
  | c :: d :: r => simpa [startsRun_cons2] using h

theorem noRun_dropWhile (p : Char → Bool) (l : List Char)
    (h : noRun l = true) : noRun (l.dropWhile p) = true := by
  induction l with
  | nil => simpa using h
  | cons c rest ih =>
    rw [List.dropWhile_cons]
    by_cases hc : p c
    · simp only [hc, if_true]
      exact ih (noRun_tail h)
    · simpa [hc] using h

theorem noRun_append_left {x y : List Char} (h : noRun (x ++ y) = true) :
    noRun x = true := by
  induction x with
  | nil => rfl
  | cons c x' ih =>
    rw [List.cons_append, noRun_cons] at h
    obtain ⟨hcond, htail⟩ := Bool.and_eq_true _ _ |>.mp h
    rw [noRun_cons]
    refine Bool.and_eq_true _ _ |>.mpr ⟨?_, ih htail⟩
    by_cases h1 : isWsClass c = true
    · rw [if_pos h1] at hcond
      rw [if_pos h1]
      simp only [Bool.and_eq_true, Bool.not_eq_true'] at hcond ⊢
      refine ⟨hcond.1, ?_⟩
      cases hs : startsRun x' with
      | false => rfl
      | true => rw [startsRun_append hs] at hcond; exact hcond.2
    · rw [if_neg h1] at hcond
      rw [if_neg h1]
      by_cases hb : c = '\\'
      · rw [if_pos hb] at hcond
        rw [if_pos hb]
        simp only [Bool.not_eq_true'] at hcond ⊢
        match x' with
        | [] => rfl
        | e :: x'' => simpa [headIsEsc] using hcond
      · rw [if_neg hb] at hcond
        rw [if_neg hb]

theorem exists_dropWhile_decomp (p : Char → Bool) (m : List Char) :
    ∃ t, m = t ++ m.dropWhile p := by
  induction m with
  | nil => exact ⟨[], rfl⟩
  | cons c r ih =>
    rw [List.dropWhile_cons]
    by_cases hc : p c
    · obtain ⟨t, ht⟩ := ih
      exact ⟨c :: t, by simp only [hc, if_true, List.cons_append]; rw [← ht]⟩
    · exact ⟨[], by simp [hc]⟩

theorem dropWhile_self_of_dropWhile (p : Char → Bool) (l : List Char) :
    (l.dropWhile p).dropWhile p = l.dropWhile p := by
  induction l with
  | nil => rfl
  | cons c r ih =>
    rw [List.dropWhile_cons]
    by_cases hc : p c
    · simpa [hc] using ih
    · simp [List.dropWhile_cons, hc]

theorem dropWhile_len_le (p : Char → Bool) (l : List Char) :
    (l.dropWhile p).length ≤ l.length := by
  induction l with
  | nil => simp
  | cons c r ih =>
    rw [List.dropWhile_cons]
    by_cases hc : p c
    · simp only [hc, if_true, List.length_cons]
      omega
    · simp [hc]

theorem dropWhile_head_false {p : Char → Bool} {m : List Char}
    (h : m.dropWhile p = m) :
    m = [] ∨ ∃ c r, m = c :: r ∧ p c = false := by
  match m with
  | [] => exact Or.inl rfl
  | c :: r =>
    refine Or.inr ⟨c, r, rfl, ?_⟩
    by_cases hc : p c
    · rw [List.dropWhile_cons] at h
      simp only [hc, if_true] at h
      have h1 := dropWhile_len_le p r
      rw [h] at h1
      simp at h1
    · simpa using hc

theorem noRun_trimSpace (l : List Char) (h : noRun l = true) :
    noRun (trimSpace l) = true := by
  have h1 : noRun (l.dropWhile isGoSpace) = true := noRun_dropWhile _ _ h
  obtain ⟨t, ht⟩ :=
    exists_dropWhile_decomp isGoSpace (l.dropWhile isGoSpace).reverse
  have hdec : l.dropWhile isGoSpace = trimSpace l ++ t.reverse := by
    have h2 := congrArg List.reverse ht
    simpa [trimSpace, List.reverse_append] using h2
  rw [hdec] at h1
  exact noRun_append_left h1

theorem dropWhile_trimR {p : Char → Bool} {A : List Char}
    (hA : A.dropWhile p = A) :
    (A.reverse.dropWhile p).reverse.dropWhile p
      = (A.reverse.dropWhile p).reverse := by
  obtain ⟨t, ht⟩ := exists_dropWhile_decomp p A.reverse
  have hdec : A = (A.reverse.dropWhile p).reverse ++ t.reverse := by
    have h2 := congrArg List.reverse ht
    simpa [List.reverse_append] using h2
  rcases hB : (A.reverse.dropWhile p).reverse with _ | ⟨c, r⟩
  · rfl
  · rw [hB] at hdec
    rcases dropWhile_head_false hA with hnil | ⟨c', r', hm, hc'⟩
    · rw [hnil] at hdec
      simp at hdec
    · rw [hm] at hdec
      rw [List.cons_append] at hdec
      have hcc : c' = c := (List.cons.injEq _ _ _ _ |>.mp hdec).1
      rw [List.dropWhile_cons]
      rw [hcc] at hc'
      simp [hc']

theorem trimSpace_idem (l : List Char) :
    trimSpace (trimSpace l) = trimSpace l := by
  have hA : (l.dropWhile isGoSpace).dropWhile isGoSpace
      = l.dropWhile isGoSpace := dropWhile_self_of_dropWhile _ l
  have h1 := dropWhile_trimR hA
  show (((trimSpace l).dropWhile isGoSpace).reverse.dropWhile
      isGoSpace).reverse = trimSpace l
  rw [show (trimSpace l).dropWhile isGoSpace = trimSpace l from h1]
  rw [show (trimSpace l).reverse
      = (l.dropWhile isGoSpace).reverse.dropWhile isGoSpace from by
    simp [trimSpace]]
  rw [dropWhile_self_of_dropWhile]
  simp [trimSpace]

/-- C7 core: the normalization at src/safesql.go lines 211-213 is idempotent. -/
theorem cleanQuery_idem (l : List Char) :
    cleanQuery (cleanQuery l) = cleanQuery l := by
  have h1 : noRun (replaceRuns l) = true := noRun_replaceRuns l
  have h2 : noRun (trimSpace (replaceRuns l)) = true := noRun_trimSpace _ h1
  show trimSpace (replaceRuns (trimSpace (replaceRuns l))) = _
  rw [replaceRuns_of_noRun _ h2]
  exact trimSpace_idem _

/-- A `types.Type` as far as the analysis inspects it: `stringType` is
`types.Typ[types.String]`; every other type is opaque. -/
inductive GoType where
  | string
  | other (id : Nat)
deriving DecidableEq

/-- A declared parameter of a signature (`types.Var`): its name and type. -/
structure Param where
  name : String
  type : GoType
deriving DecidableEq

/-- A method of a named type (`types.Func`), with the identity of the
corresponding `ssa.Function` (`ssa.FuncValue`), its exported flag, and the
declared parameters of its `types.Signature`. -/
structure Method where
  id : Nat
  exported : Bool
  params : List Param
deriving DecidableEq

/-- One object of the sink package's top-level scope (`sql.Scope()`): its
exported flag, whether it is a `*types.TypeName`, and — when it is — the
methods of its named type. -/
structure ScopeObj where
  exported : Bool
  isTypeName : Bool
  methods : List Method
deriving DecidableEq

/-- A cataloged sink (`QueryMethod`, src/safesql.go lines 107-112): the
identity of its `ssa.Function` (field `SSA`), the declared parameter count
(`ArgCount`) and the index of the sensitive parameter (`Param`). -/
structure QueryMethod where
  ssa : Nat
  argCount : Nat
  param : Nat
deriving DecidableEq

/-- src/safesql.go lines 151-160 (`FuncHasQuery`): the offset of the first
declared parameter named "query" whose type is the string type, if any. -/
def FuncHasQuery : List Param → Option Nat
  | [] => none
  | p :: ps =>
    if p.name = "query" ∧ p.type = GoType.string then some 0
    else (FuncHasQuery ps).map (· + 1)

/-- src/safesql.go lines 116-145 (`FindQueryMethods`): every exported method
of an exported type name of the scope whose signature has a string parameter
named "query", recorded with its parameter count and query-parameter
offset. -/
def FindQueryMethods (scope : List ScopeObj) : List QueryMethod :=
  (scope.map fun o =>
    if o.exported ∧ o.isTypeName then
      o.methods.filterMap fun m =>
        if m.exported then
          match FuncHasQuery m.params with
          | some i => some ⟨m.id, m.params.length, i⟩
          | none => none
        else none
    else []).flatten

/-- A package-level function of an `ssa.Package`'s member table. -/
structure PkgFunc where
  name : String
  paramCount : Nat
deriving DecidableEq

/-- A loaded program unit (an initial package and its `ssa.Package`). -/
structure Pkg where
  id : Nat
  funcs : List PkgFunc
deriving DecidableEq

/-- src/safesql.go lines 164-174 (`FindMains`): the initial packages whose
member table has a package-level function named "main"
(`ssaPkg.Func("main") != nil`). -/
def FindMains (ips : List Pkg) : List Pkg :=
  ips.filter (fun p => p.funcs.any (fun f => f.name = "main"))

/-- An actual argument value at a call site: an `ssa.Const` carrying the
`ExactString` of its constant value, or any other (non-constant) value. -/
inductive Value where
  | const (text : List Char)
  | nonconst (id : Nat)
deriving DecidableEq

/-- One incoming call-graph edge (`callgraph.Edge`): the call instruction
identity (`edge.Site`), its enclosing function (`edge.Site.Parent()`), and
the actual argument list (`edge.Site.Common().Args`). -/
structure Edge where
  site : Nat
  caller : Nat
  args : List Value
deriving DecidableEq

/-- A classification outcome for one non-skipped edge. -/
inductive Outcome where
  | bad (site : Nat)
  | query (text : List Char)
deriving DecidableEq

/-- Classification of the selected argument (src/safesql.go lines 207-214):
a non-`ssa.Const` argument makes the call site unsafe; a constant is
normalized and collected.  An out-of-range sensitive-parameter index would be
a Go runtime panic, modelled as an error. -/
def classifyArg (m : QueryMethod) (site : Nat) (args : List Value) :
    Except String (Option Outcome) :=
  match args[m.param]? with
  | none => .error "index out of range"
  | some (.nonconst _) => .ok (some (.bad site))
  | some (.const s) => .ok (some (.query (cleanQuery s)))

/-- The loop body of `FindNonConstCalls` for one edge (src/safesql.go lines
195-215): skip the edge when its calling function is cataloged; drop the
first actual argument when the list has one extra entry (implicit receiver);
`panic("arg count mismatch")` — modelled as an error — on any other length
mismatch; otherwise classify the argument at index `m.Param`. -/
def processEdge (okFuncs : List Nat) (m : QueryMethod) (e : Edge) :
    Except String (Option Outcome) :=
  if e.caller ∈ okFuncs then .ok none
  else if e.args.length = m.argCount + 1 then
    classifyArg m e.site (e.args.drop 1)
  else if e.args.length = m.argCount then
    classifyArg m e.site e.args
  else .error "arg count mismatch"

/-- Process the incoming edges of one sink node in order, accumulating the
unsafe call sites and the normalized constant texts. -/
def processEdges (okFuncs : List Nat) (m : QueryMethod) :
    List Edge → Except String (List Nat × List (List Char))
  | [] => .ok ([], [])
  | e :: es =>
    match processEdge okFuncs m e with
    | .error msg => .error msg
    | .ok r =>
      match processEdges okFuncs m es with
      | .error msg => .error msg
      | .ok (bad, queries) =>
        match r with
        | none => .ok (bad, queries)
        | some (.bad s) => .ok (s :: bad, queries)
        | some (.query q) => .ok (bad, q :: queries)

/-- The forwarding-exclusion set `okFuncs` (src/safesql.go lines 186-189):
the `ssa.Function` identities of the cataloged sinks. -/
def okFuncsOf (qms : List QueryMethod) : List Nat :=
  qms.map (fun m => m.ssa)

/-- The outer loop of `FindNonConstCalls` over the catalog, in catalog
order. -/
def walkCatalog (okFuncs : List Nat) (cg : Nat → List Edge) :
    List QueryMethod → Except String (List Nat × List (List Char))
  | [] => .ok ([], [])
  | m :: ms =>
    match processEdges okFuncs m (cg m.ssa) with
    | .error msg => .error msg
    | .ok (bad₁, q₁) =>
      match walkCatalog okFuncs cg ms with
      | .error msg => .error msg
      | .ok (bad₂, q₂) => .ok (bad₁ ++ bad₂, q₁ ++ q₂)

/-- src/safesql.go lines 178-219 (`FindNonConstCalls`): the call graph is
modelled, after `cg.DeleteSyntheticNodes()`, as the map from an
`ssa.Function` identity to the incoming-edge list of its node
(`cg.CreateNode(m.SSA).In`; a function without a node has no incoming
edges).  The `panic` paths are modelled as `Except.error`. -/
def FindNonConstCalls (cg : Nat → List Edge) (qms : List QueryMethod) :
    Except String (List Nat × List (List Char)) :=
  walkCatalog (okFuncsOf qms) cg qms

/-- The receiver-adjusted argument list of the classification (step 4):
drop the implicit receiver when present. -/
def selArgs (m : QueryMethod) (e : Edge) : List Value :=
  if e.args.length = m.argCount + 1 then e.args.drop 1 else e.args

/-- The sensitive argument selected at an edge, when the index is in
range. -/
def selArg (m : QueryMethod) (e : Edge) : Option Value :=
  (selArgs m e)[m.param]?

/-- The edges of a node surviving the forwarding exclusion: the calling
function is not cataloged. -/
def survivors (okFuncs : List Nat) (edges : List Edge) : List Edge :=
  edges.filter (fun e => decide (e.caller ∉ okFuncs))

/-- The unsafe-site entry contributed by a surviving edge, if any. -/
def badSel (m : QueryMethod) (e : Edge) : Option Nat :=
  match selArg m e with
  | some (.nonconst _) => some e.site
  | _ => none

/-- The constant-query entry contributed by a surviving edge, if any. -/
def querySel (m : QueryMethod) (e : Edge) : Option (List Char) :=
  match selArg m e with
  | some (.const s) => some (cleanQuery s)
  | _ => none

theorem processEdge_skip {ok : List Nat} {m : QueryMethod} {e : Edge}
    (h : e.caller ∈ ok) : processEdge ok m e = .ok none := by
  simp [processEdge, h]

theorem processEdge_surv {ok : List Nat} {m : QueryMethod} {e : Edge}
    (h : e.caller ∉ ok) :
    processEdge ok m e =
      if e.args.length = m.argCount + 1 ∨ e.args.length = m.argCount then
        match selArg m e with
        | none => .error "index out of range"
        | some (.nonconst _) => .ok (some (.bad e.site))
        | some (.const s) => .ok (some (.query (cleanQuery s)))
      else .error "arg count mismatch" := by
  by_cases h1 : e.args.length = m.argCount + 1
  · simp [processEdge, h, h1, classifyArg, selArg, selArgs]
  · by_cases h2 : e.args.length = m.argCount
    · simp [processEdge, h, h1, h2, classifyArg, selArg, selArgs]
    · simp [processEdge, h, h1, h2]

theorem processEdges_cons (ok : List Nat) (m : QueryMethod) (e : Edge)
    (es : List Edge) :
    processEdges ok m (e :: es) =
      match processEdge ok m e with
      | .error msg => .error msg
      | .ok r =>
        match processEdges ok m es with
        | .error msg => .error msg
        | .ok (bad, queries) =>
          match r with
          | none => .ok (bad, queries)
          | some (.bad s) => .ok (s :: bad, queries)
          | some (.query q) => .ok (bad, q :: queries) :=
  rfl

theorem survivors_cons (ok : List Nat) (e : Edge) (es : List Edge) :
    survivors ok (e :: es) =
      if e.caller ∈ ok then survivors ok es else e :: survivors ok es := by
  simp only [survivors, List.filter_cons]
  by_cases hm : e.caller ∈ ok
  · simp [hm]
  · simp [hm]

theorem processEdges_ok {ok : List Nat} {m : QueryMethod} {es : List Edge}
    {bad : List Nat} {qs : List (List Char)}
    (h : processEdges ok m es = .ok (bad, qs)) :
    bad = (survivors ok es).filterMap (badSel m) ∧
    qs = (survivors ok es).filterMap (querySel m) ∧
    ∀ e ∈ es, e.caller ∉ ok →
      (e.args.length = m.argCount + 1 ∨ e.args.length = m.argCount) ∧
      (selArg m e).isSome = true := by
  induction es generalizing bad qs with
  | nil =>
    simp only [processEdges, Except.ok.injEq, Prod.mk.injEq] at h
    obtain ⟨h1, h2⟩ := h
    subst h1; subst h2
    simp [survivors]
  | cons e es ih =>
    by_cases hmem : e.caller ∈ ok
    · rw [processEdges_cons, processEdge_skip hmem] at h
      cases hrec : processEdges ok m es with
      | error msg => rw [hrec] at h; simp at h
      | ok r =>
        obtain ⟨bad', qs'⟩ := r
        rw [hrec] at h
        simp only [Except.ok.injEq, Prod.mk.injEq] at h
        obtain ⟨h1, h2⟩ := h
        subst h1; subst h2
        obtain ⟨hb, hq, hall⟩ := ih hrec
        rw [survivors_cons]
        simp only [hmem, if_true]
        refine ⟨hb, hq, ?_⟩
        intro e' he' hnc
        rcases List.mem_cons.mp he' with he' | he'
        · subst he'; exact absurd hmem hnc
        · exact hall e' he' hnc
    · rw [processEdges_cons, processEdge_surv hmem] at h
      by_cases hlen : e.args.length = m.argCount + 1 ∨ e.args.length = m.argCount
      · rw [if_pos hlen] at h
        cases hsel : selArg m e with
        | none => rw [hsel] at h; simp at h
        | some v =>
          rw [hsel] at h
          cases hrec : processEdges ok m es with
          | error msg =>
            rw [hrec] at h
            cases v <;> simp at h
          | ok r =>
            obtain ⟨bad', qs'⟩ := r
            rw [hrec] at h
            obtain ⟨hb, hq, hall⟩ := ih hrec
            rw [survivors_cons]
            simp only [hmem, if_false]
            have hforall : ∀ e' ∈ e :: es, e'.caller ∉ ok →
                (e'.args.length = m.argCount + 1 ∨
                  e'.args.length = m.argCount) ∧
                (selArg m e').isSome = true := by
              intro e' he' hnc
              rcases List.mem_cons.mp he' with he'' | he''
              · subst he''
                exact ⟨hlen, by rw [hsel]; rfl⟩
              · exact hall e' he'' hnc
            cases v with
            | const s =>
              simp only [Except.ok.injEq, Prod.mk.injEq] at h
              obtain ⟨h1, h2⟩ := h
              subst h1; subst h2
              rw [List.filterMap_cons, List.filterMap_cons]
              rw [show badSel m e = none from by simp [badSel, hsel]]
              rw [show querySel m e = some (cleanQuery s) from by
                simp [querySel, hsel]]
              exact ⟨hb, by rw [hq], hforall⟩
            | nonconst i =>
              simp only [Except.ok.injEq, Prod.mk.injEq] at h
              obtain ⟨h1, h2⟩ := h
              subst h1; subst h2
              rw [List.filterMap_cons, List.filterMap_cons]
              rw [show badSel m e = some e.site from by simp [badSel, hsel]]
              rw [show querySel m e = none from by simp [querySel, hsel]]
              exact ⟨by rw [hb], hq, hforall⟩
      · rw [if_neg hlen] at h
        simp at h

/-- The unsafe call sites in catalog order, then in incoming-edge order. -/
def badRef (ok : List Nat) (cg : Nat → List Edge)
    (qms : List QueryMethod) : List Nat :=
  (qms.map fun m => (survivors ok (cg m.ssa)).filterMap (badSel m)).flatten

/-- The normalized constant query texts in catalog order, then in
incoming-edge order. -/
def queryRef (ok : List Nat) (cg : Nat → List Edge)
    (qms : List QueryMethod) : List (List Char) :=
  (qms.map fun m => (survivors ok (cg m.ssa)).filterMap (querySel m)).flatten

theorem walkCatalog_cons (ok : List Nat) (cg : Nat → List Edge)
    (m : QueryMethod) (ms : List QueryMethod) :
    walkCatalog ok cg (m :: ms) =
      match processEdges ok m (cg m.ssa) with
      | .error msg => .error msg
      | .ok (bad₁, q₁) =>
        match walkCatalog ok cg ms with
        | .error msg => .error msg
        | .ok (bad₂, q₂) => .ok (bad₁ ++ bad₂, q₁ ++ q₂) :=
  rfl

theorem walkCatalog_ok {ok : List Nat} {cg : Nat → List Edge}
    {qms : List QueryMethod} {bad : List Nat} {qs : List (List Char)}
    (h : walkCatalog ok cg qms = .ok (bad, qs)) :
    bad = badRef ok cg qms ∧ qs = queryRef ok cg qms ∧
    ∀ m ∈ qms, ∀ e ∈ cg m.ssa, e.caller ∉ ok →
      (e.args.length = m.argCount + 1 ∨ e.args.length = m.argCount) ∧
      (selArg m e).isSome = true := by
  induction qms generalizing bad qs with
  | nil =>
    simp only [walkCatalog, Except.ok.injEq, Prod.mk.injEq] at h
    obtain ⟨h1, h2⟩ := h
    subst h1; subst h2
    simp [badRef, queryRef]
  | cons m ms ih =>
    rw [walkCatalog_cons] at h
    cases hpe : processEdges ok m (cg m.ssa) with
    | error msg => rw [hpe] at h; simp at h
    | ok r =>
      obtain ⟨bad₁, q₁⟩ := r
      rw [hpe] at h
      cases hrec : walkCatalog ok cg ms with
      | error msg => rw [hrec] at h; simp at h
      | ok r =>
        obtain ⟨bad₂, q₂⟩ := r
        rw [hrec] at h
        simp only [Except.ok.injEq, Prod.mk.injEq] at h
        obtain ⟨h1, h2⟩ := h
        subst h1; subst h2
        obtain ⟨hb₁, hq₁, hall₁⟩ := processEdges_ok hpe
        obtain ⟨hb₂, hq₂, hall₂⟩ := ih hrec
        refine ⟨?_, ?_, ?_⟩
        · rw [badRef, List.map_cons, List.flatten_cons, hb₁, hb₂]; rfl
        · rw [queryRef, List.map_cons, List.flatten_cons, hq₁, hq₂]; rfl
        · intro m' hm' e he' hnc
          rcases List.mem_cons.mp hm' with hm'' | hm''
          · subst hm''; exact hall₁ e he' hnc
          · exact hall₂ m' hm'' e he' hnc

theorem FindNonConstCalls_ok {cg : Nat → List Edge}
    {qms : List QueryMethod} {bad : List Nat} {qs : List (List Char)}
    (h : FindNonConstCalls cg qms = .ok (bad, qs)) :
    bad = badRef (okFuncsOf qms) cg qms ∧
    qs = queryRef (okFuncsOf qms) cg qms ∧
    ∀ m ∈ qms, ∀ e ∈ cg m.ssa, e.caller ∉ okFuncsOf qms →
      (e.args.length = m.argCount + 1 ∨ e.args.length = m.argCount) ∧
      (selArg m e).isSome = true :=
  walkCatalog_ok h

theorem processEdges_error_of_mem {ok : List Nat} {m : QueryMethod}
    {es : List Edge} {e : Edge} {msg : String} (he : e ∈ es)
    (h : processEdge ok m e = .error msg) :
    ∃ msg', processEdges ok m es = .error msg' := by
  induction es with
  | nil => simp at he
  | cons e' es ih =>
    rw [processEdges_cons]
    cases hpe : processEdge ok m e' with
    | error msg' => exact ⟨msg', rfl⟩
    | ok r =>
      rcases List.mem_cons.mp he with he' | he'
      · subst he'
        rw [hpe] at h
        exact absurd h (by simp)
      · obtain ⟨msg', hrec⟩ := ih he'
        rw [hrec]
        exact ⟨msg', rfl⟩

theorem walkCatalog_error_of_mem {ok : List Nat} {cg : Nat → List Edge}
    {qms : List QueryMethod} {m : QueryMethod} {msg : String} (hm : m ∈ qms)
    (h : processEdges ok m (cg m.ssa) = .error msg) :
    ∃ msg', walkCatalog ok cg qms = .error msg' := by
  induction qms with
  | nil => simp at hm
  | cons m' ms ih =>
    rw [walkCatalog_cons]
    cases hpe : processEdges ok m' (cg m'.ssa) with
    | error msg' => exact ⟨msg', rfl⟩
    | ok r =>
      obtain ⟨bad₁, q₁⟩ := r
      rcases List.mem_cons.mp hm with hm' | hm'
      · subst hm'
        rw [hpe] at h
        exact absurd h (by simp)
      · obtain ⟨msg', hrec⟩ := ih hm'
        rw [hrec]
        exact ⟨msg', rfl⟩

theorem classifyArg_error {m : QueryMethod} {site : Nat} {args : List Value}
    {msg : String} (hlt : m.param < args.length)
    (h : classifyArg m site args = .error msg) : False := by
  have hsome : args[m.param]? = some args[m.param] :=
    List.getElem?_eq_getElem hlt
  rw [classifyArg, hsome] at h
  cases hv : args[m.param] with
  | const s => rw [hv] at h; exact absurd h (by simp)
  | nonconst i => rw [hv] at h; exact absurd h (by simp)

theorem processEdge_error_msg {ok : List Nat} {m : QueryMethod} {e : Edge}
    {msg : String} (hp : m.param < m.argCount)
    (h : processEdge ok m e = .error msg) : msg = "arg count mismatch" := by
  by_cases hmem : e.caller ∈ ok
  · rw [processEdge_skip hmem] at h
    exact absurd h (by simp)
  · by_cases h1 : e.args.length = m.argCount + 1
    · exfalso
      rw [show processEdge ok m e = classifyArg m e.site (e.args.drop 1)
        from by simp [processEdge, hmem, h1]] at h
      refine classifyArg_error ?_ h
      rw [List.length_drop, h1]
      omega
    · by_cases h2 : e.args.length = m.argCount
      · exfalso
        rw [show processEdge ok m e = classifyArg m e.site e.args
          from by simp [processEdge, hmem, h1, h2]] at h
        refine classifyArg_error ?_ h
        rw [h2]
        exact hp
      · rw [show processEdge ok m e = .error "arg count mismatch"
          from by simp [processEdge, hmem, h1, h2]] at h
        exact (Except.error.injEq _ _ |>.mp h).symm

theorem processEdges_error_msg {ok : List Nat} {m : QueryMethod}
    {es : List Edge} {msg : String} (hp : m.param < m.argCount)
    (h : processEdges ok m es = .error msg) : msg = "arg count mismatch" := by
  induction es with
  | nil => simp [processEdges] at h
  | cons e es ih =>
    rw [processEdges_cons] at h
    cases hpe : processEdge ok m e with
    | error msg' =>
      rw [hpe] at h
      have h1 : msg' = msg := (Except.error.injEq _ _ |>.mp h)
      rw [← h1]
      exact processEdge_error_msg hp hpe
    | ok r =>
      rw [hpe] at h
      cases hrec : processEdges ok m es with
      | error msg' =>
        rw [hrec] at h
        rcases r with _ | ⟨s⟩ | ⟨q⟩ <;>
          · have h1 : msg' = msg := (Except.error.injEq _ _ |>.mp h)
            rw [h1] at hrec
            exact ih hrec
      | ok r' =>
        obtain ⟨b, q⟩ := r'
        rw [hrec] at h
        rcases r with _ | ⟨s⟩ | ⟨q'⟩ <;> simp at h

theorem walkCatalog_error_msg {ok : List Nat} {cg : Nat → List Edge}
    {qms : List QueryMethod} {msg : String}
    (hp : ∀ m ∈ qms, m.param < m.argCount)
    (h : walkCatalog ok cg qms = .error msg) : msg = "arg count mismatch" := by
  induction qms with
  | nil => simp [walkCatalog] at h
  | cons m ms ih =>
    rw [walkCatalog_cons] at h
    cases hpe : processEdges ok m (cg m.ssa) with
    | error msg' =>
      rw [hpe] at h
      have h1 : msg' = msg := (Except.error.injEq _ _ |>.mp h)
      rw [← h1]
      exact processEdges_error_msg (hp m (List.mem_cons_self m ms)) hpe
    | ok r =>
      obtain ⟨b₁, q₁⟩ := r
      rw [hpe] at h
      cases hrec : walkCatalog ok cg ms with
      | error msg' =>
        rw [hrec] at h
        have h1 : msg' = msg := (Except.error.injEq _ _ |>.mp h)
        rw [h1] at hrec
        exact ih (fun m' hm' => hp m' (List.mem_cons_of_mem m hm')) hrec
      | ok r' =>
        obtain ⟨b₂, q₂⟩ := r'
        rw [hrec] at h
        simp at h

theorem FuncHasQuery_lt {ps : List Param} {i : Nat}
    (h : FuncHasQuery ps = some i) : i < ps.length := by
  induction ps generalizing i with
  | nil => simp [FuncHasQuery] at h
  | cons p ps ih =>
    simp only [FuncHasQuery] at h
    by_cases hp : p.name = "query" ∧ p.type = GoType.string
    · rw [if_pos hp] at h
      have h0 : (0 : Nat) = i := Option.some.injEq _ _ |>.mp h
      subst h0
      simp
    · rw [if_neg hp] at h
      cases hfq : FuncHasQuery ps with
      | none => rw [hfq] at h; simp at h
      | some j =>
        rw [hfq] at h
        simp only [Option.map_some'] at h
        have h1 : j + 1 = i := Option.some.injEq _ _ |>.mp h
        have := ih hfq
        simp only [List.length_cons]
        omega

theorem FuncHasQuery_spec {ps : List Param} {i : Nat}
    (h : FuncHasQuery ps = some i) :
    ∃ p, ps[i]? = some p ∧ p.name = "query" ∧ p.type = GoType.string ∧
      ∀ j, j < i → ∀ q, ps[j]? = some q →
        ¬(q.name = "query" ∧ q.type = GoType.string) := by
  induction ps generalizing i with
  | nil => simp [FuncHasQuery] at h
  | cons p ps ih =>
    simp only [FuncHasQuery] at h
    by_cases hp : p.name = "query" ∧ p.type = GoType.string
    · rw [if_pos hp] at h
      have h0 : (0 : Nat) = i := Option.some.injEq _ _ |>.mp h
      subst h0
      exact ⟨p, by simp, hp.1, hp.2, fun j hj => by omega⟩
    · rw [if_neg hp] at h
      cases hfq : FuncHasQuery ps with
      | none => rw [hfq] at h; simp at h
      | some j =>
        rw [hfq] at h
        simp only [Option.map_some'] at h
        have h1 : j + 1 = i := Option.some.injEq _ _ |>.mp h
        subst h1
        obtain ⟨q, hq, hn, ht, hfirst⟩ := ih hfq
        refine ⟨q, by simpa using hq, hn, ht, ?_⟩
        intro j' hj' q' hq'
        match j' with
        | 0 =>
          simp only [List.getElem?_cons_zero, Option.some.injEq] at hq'
          subst hq'
          exact hp
        | j'' + 1 =>
          simp only [List.getElem?_cons_succ] at hq'
          exact hfirst j'' (by omega) q' hq'

theorem FuncHasQuery_of_first {ps : List Param} {i : Nat} {p : Param}
    (hget : ps[i]? = some p) (hname : p.name = "query")
    (hty : p.type = GoType.string)
    (hfirst : ∀ j, j < i → ∀ q, ps[j]? = some q →
      ¬(q.name = "query" ∧ q.type = GoType.string)) :
    FuncHasQuery ps = some i := by
  induction ps generalizing i with
  | nil => simp at hget
  | cons p' ps ih =>
    match i with
    | 0 =>
      simp only [List.getElem?_cons_zero, Option.some.injEq] at hget
      subst hget
      simp only [FuncHasQuery]
      rw [if_pos ⟨hname, hty⟩]
    | j + 1 =>
      simp only [List.getElem?_cons_succ] at hget
      have hp' : ¬(p'.name = "query" ∧ p'.type = GoType.string) :=
        hfirst 0 (by omega) p' (by simp)
      simp only [FuncHasQuery]
      rw [if_neg hp']
      rw [ih hget (fun j' hj' q hq =>
        hfirst (j' + 1) (by omega) q (by simpa using hq))]
      rfl

theorem FindQueryMethods_mem {scope : List ScopeObj} {qm : QueryMethod} :
    qm ∈ FindQueryMethods scope ↔
      ∃ o ∈ scope, o.exported = true ∧ o.isTypeName = true ∧
        ∃ m ∈ o.methods, m.exported = true ∧
          FuncHasQuery m.params = some qm.param ∧
          qm.ssa = m.id ∧ qm.argCount = m.params.length := by
  rw [FindQueryMethods, List.mem_flatten]
  constructor
  · rintro ⟨s, hs, hqm⟩
    obtain ⟨o, ho, rfl⟩ := List.mem_map.mp hs
    by_cases hcond : o.exported = true ∧ o.isTypeName = true
    · rw [if_pos (by exact_mod_cast hcond)] at hqm
      obtain ⟨m, hm, hg⟩ := List.mem_filterMap.mp hqm
      by_cases hex : m.exported = true
      · rw [if_pos (by exact_mod_cast hex)] at hg
        cases hfq : FuncHasQuery m.params with
        | none => rw [hfq] at hg; simp at hg
        | some j =>
          rw [hfq] at hg
          have hq : QueryMethod.mk m.id m.params.length j = qm :=
            Option.some.injEq _ _ |>.mp hg
          refine ⟨o, ho, hcond.1, hcond.2, m, hm, hex, ?_, ?_, ?_⟩
          · rw [← hq]; exact hfq
          · rw [← hq]
          · rw [← hq]
      · rw [if_neg (by exact_mod_cast hex)] at hg
        simp at hg
    · rw [if_neg (by exact_mod_cast hcond)] at hqm
      simp at hqm
  · rintro ⟨o, ho, hexp, htn, m, hm, hex, hfq, hssa, hac⟩
    refine ⟨_, List.mem_map.mpr ⟨o, ho, rfl⟩, ?_⟩
    rw [if_pos (by exact_mod_cast And.intro hexp htn)]
    refine List.mem_filterMap.mpr ⟨m, hm, ?_⟩
    rw [if_pos (by exact_mod_cast hex), hfq]
    obtain ⟨s1, a1, p1⟩ := qm
    simp only at hssa hac
    subst hssa
    subst hac
    rfl

theorem filterMap_partition_length {α β γ : Type} (f : α → Option β)
    (g : α → Option γ) (l : List α)
    (h : ∀ x ∈ l, ((f x).isSome = true ∧ g x = none) ∨
      (f x = none ∧ (g x).isSome = true)) :
    (l.filterMap f).length + (l.filterMap g).length = l.length := by
  induction l with
  | nil => simp
  | cons a l ih =>
    have hrest := ih (fun x hx => h x (List.mem_cons_of_mem a hx))
    rcases h a (List.mem_cons_self a l) with ⟨hf, hg⟩ | ⟨hf, hg⟩
    · obtain ⟨b, hb⟩ := Option.isSome_iff_exists.mp hf
      rw [List.filterMap_cons, List.filterMap_cons, hb, hg]
      simp only [List.length_cons, List.length]
      omega
    · obtain ⟨c, hc⟩ := Option.isSome_iff_exists.mp hg
      rw [List.filterMap_cons, List.filterMap_cons, hc, hf]
      simp only [List.length_cons, List.length]
      omega

theorem survivors_partition {ok : List Nat} {cg : Nat → List Edge}
    {m : QueryMethod}
    (hall : ∀ e ∈ cg m.ssa, e.caller ∉ ok → (selArg m e).isSome = true) :
    ((survivors ok (cg m.ssa)).filterMap (badSel m)).length +
      ((survivors ok (cg m.ssa)).filterMap (querySel m)).length
      = (survivors ok (cg m.ssa)).length := by
  refine filterMap_partition_length _ _ _ ?_
  intro e he
  obtain ⟨hmem, hdec⟩ := List.mem_filter.mp he
  have hnc : e.caller ∉ ok := of_decide_eq_true hdec
  have hsome := hall e hmem hnc
  obtain ⟨v, hv⟩ := Option.isSome_iff_exists.mp hsome
  cases v with
  | const s => exact Or.inr ⟨by simp [badSel, hv], by simp [querySel, hv]⟩
  | nonconst i => exact Or.inl ⟨by simp [badSel, hv], by simp [querySel, hv]⟩

theorem refs_length_sum {ok : List Nat} {cg : Nat → List Edge}
    (qms : List QueryMethod)
    (hall : ∀ m ∈ qms, ∀ e ∈ cg m.ssa, e.caller ∉ ok →
      (selArg m e).isSome = true) :
    (badRef ok cg qms).length + (queryRef ok cg qms).length
      = (qms.map fun m => (survivors ok (cg m.ssa)).length).sum := by
  induction qms with
  | nil => simp [badRef, queryRef]
  | cons m ms ih =>
    have h1 := survivors_partition
      (fun e he hnc => hall m (List.mem_cons_self m ms) e he hnc)
    have h2 := ih (fun m' hm' => hall m' (List.mem_cons_of_mem m hm'))
    simp only [badRef, queryRef, List.map_cons, List.flatten_cons,
      List.length_append, List.sum_cons] at *
    omega

theorem processEdges_skip_insert {ok : List Nat} {m : QueryMethod} {e : Edge}
    (h : e.caller ∈ ok) (l₁ l₂ : List Edge) :
    processEdges ok m (l₁ ++ e :: l₂) = processEdges ok m (l₁ ++ l₂) := by
  induction l₁ with
  | nil =>
    simp only [List.nil_append]
    rw [processEdges_cons, processEdge_skip h]
    cases hrec : processEdges ok m l₂ with
    | error msg => rfl
    | ok r => obtain ⟨b, q⟩ := r; rfl
  | cons a l₁ ih =>
    simp only [List.cons_append]
    rw [processEdges_cons, processEdges_cons, ih]

theorem walkCatalog_skip_insert {ok : List Nat} {cg cg' : Nat → List Edge}
    {f : Nat} {e : Edge} {l₁ l₂ : List Edge}
    (hf' : cg' f = l₁ ++ e :: l₂) (hf : cg f = l₁ ++ l₂)
    (hother : ∀ g, g ≠ f → cg' g = cg g) (hskip : e.caller ∈ ok)
    (qms : List QueryMethod) :
    walkCatalog ok cg' qms = walkCatalog ok cg qms := by
  induction qms with
  | nil => rfl
  | cons m ms ih =>
    rw [walkCatalog_cons, walkCatalog_cons, ih]
    have hnode : processEdges ok m (cg' m.ssa)
        = processEdges ok m (cg m.ssa) := by
      by_cases hm : m.ssa = f
      · rw [hm, hf', hf]
        exact processEdges_skip_insert hskip l₁ l₂
      · rw [hother _ hm]
    rw [hnode]

theorem walkCatalog_agree {ok : List Nat} {cg₁ cg₂ : Nat → List Edge}
    (qms : List QueryMethod) (hagree : ∀ m ∈ qms, cg₁ m.ssa = cg₂ m.ssa) :
    walkCatalog ok cg₁ qms = walkCatalog ok cg₂ qms := by
  induction qms with
  | nil => rfl
  | cons m ms ih =>
    rw [walkCatalog_cons, walkCatalog_cons,
      hagree m (List.mem_cons_self m ms),
      ih (fun m' hm' => hagree m' (List.mem_cons_of_mem m hm'))]

theorem nodup_getElem?_inj {α : Type} {l : List α} (h : l.Nodup) {i j : Nat}
    {a : α} (hi : l[i]? = some a) (hj : l[j]? = some a) : i = j := by
  obtain ⟨hi', hia⟩ := List.getElem?_eq_some_iff.mp hi
  obtain ⟨hj', hja⟩ := List.getElem?_eq_some_iff.mp hj
  exact (List.Nodup.getElem_inj_iff h).mp (hia.trans hja.symm)

theorem FindQueryMethods_param_lt {scope : List ScopeObj} {qm : QueryMethod}
    (h : qm ∈ FindQueryMethods scope) : qm.param < qm.argCount := by
  obtain ⟨o, ho, -, -, m, hm, -, hfq, hssa, hac⟩ :=
    FindQueryMethods_mem.mp h
  rw [hac]
  exact FuncHasQuery_lt hfq

/-! Concrete instances used to witness the theorems below. -/

/-- A one-parameter sink with `ssa`-identity 0, `ArgCount` 1, `Param` 0. -/
def qmW : QueryMethod := ⟨0, 1, 0⟩

/-- A one-sink catalog. -/
def qmsW : List QueryMethod := [qmW]

/-- A method call edge: receiver plus the query argument. -/
def eC1 : Edge := ⟨5, 1, [Value.nonconst 7, Value.const ['q']]⟩

def cgC1 : Nat → List Edge := fun _ => [eC1]

/-- Two call sites passing the same constant text. -/
def eC2a : Edge := ⟨1, 5, [Value.const ['q']]⟩

def eC2b : Edge := ⟨2, 6, [Value.const ['q']]⟩

def cgC2 : Nat → List Edge := fun _ => [eC2a, eC2b]

/-- An edge called from inside the cataloged sink (function 0) itself. -/
def eC3a : Edge := ⟨9, 0, [Value.nonconst 1]⟩

/-- A surviving edge with a non-constant argument. -/
def eC3b : Edge := ⟨10, 2, [Value.nonconst 3]⟩

def cgC3 : Nat → List Edge := fun n => if n = 0 then [eC3a, eC3b] else []

/-- A scope with one exported type carrying one exported method whose single
parameter is `query string`; the method's `ssa`-identity is 3. -/
def scopeW : List ScopeObj :=
  [⟨true, true, [⟨3, true, [⟨"query", GoType.string⟩]⟩]⟩]

/-- A unit whose `main` function takes one parameter. -/
def pkgC5 : Pkg := ⟨0, [⟨"main", 1⟩]⟩

/-- A constant-argument edge and a non-constant-argument edge. -/
def eC6a : Edge := ⟨1, 5, [Value.const ['a']]⟩

def eC6b : Edge := ⟨2, 5, [Value.nonconst 0]⟩

def cgC6 : Nat → List Edge := fun _ => [eC6a, eC6b]

/-- Two graphs agreeing on the catalog's node but not elsewhere. -/
def cgC8a : Nat → List Edge := fun n => if n = 0 then [eC6b] else [eC6a]

def cgC8b : Nat → List Edge := fun n => if n = 0 then [eC6b] else []

/-- An edge whose argument list length matches neither `ArgCount` nor
`ArgCount + 1`. -/
def cgC9 : Nat → List Edge := fun _ => [⟨11, 99, []⟩]

/-- A sink-to-sink forwarding edge passing a constant. -/
def eC10a : Edge := ⟨1, 0, [Value.const ['q']]⟩

/-- A surviving edge passing the same constant. -/
def eC10b : Edge := ⟨2, 7, [Value.const ['q']]⟩

def cgC10 : Nat → List Edge := fun n => if n = 0 then [eC10a, eC10b] else []

/-- `cgC10` without the forwarding edge. -/
def cgC10' : Nat → List Edge := fun n => if n = 0 then [eC10b] else []

/-- C1: for every sink signature with sensitive index `Param` and parameter
count `ArgCount = n`, and every non-excluded incoming edge: an actual
argument list of length `n + 1` loses its first element (the implicit
receiver) and classification proceeds on exactly `n` arguments; a list of
length `n` is classified as-is; any other length makes the edge processing,
and with it the whole of `FindNonConstCalls`, abort with the fatal
`panic`-modelling error — it never produces a verdict, so the site is
classified neither safe nor unsafe. -/
theorem claim_C1_receiver_offset (qms : List QueryMethod)
    (cg : Nat → List Edge) (m : QueryMethod) (e : Edge) (hm : m ∈ qms)
    (he : e ∈ cg m.ssa) (hnc : e.caller ∉ okFuncsOf qms) :
    (e.args.length = m.argCount + 1 →
      processEdge (okFuncsOf qms) m e
        = classifyArg m e.site (e.args.drop 1) ∧
      (e.args.drop 1).length = m.argCount) ∧
    (e.args.length = m.argCount →
      processEdge (okFuncsOf qms) m e = classifyArg m e.site e.args) ∧
    (e.args.length ≠ m.argCount + 1 → e.args.length ≠ m.argCount →
      processEdge (okFuncsOf qms) m e = .error "arg count mismatch" ∧
      ∃ msg, FindNonConstCalls cg qms = .error msg) := by
  refine ⟨?_, ?_, ?_⟩
  · intro h1
    refine ⟨by simp [processEdge, hnc, h1], ?_⟩
    rw [List.length_drop, h1]
    omega
  · intro h2
    have h1 : e.args.length ≠ m.argCount + 1 := by omega
    simp [processEdge, hnc, h1, h2]
  · intro h1 h2
    have hpe : processEdge (okFuncsOf qms) m e
        = .error "arg count mismatch" := by
      simp [processEdge, hnc, h1, h2]
    refine ⟨hpe, ?_⟩
    obtain ⟨msg', hmsg⟩ := processEdges_error_of_mem he hpe
    exact walkCatalog_error_of_mem hm hmsg

theorem claim_C1_receiver_offset_witness :
    (processEdge (okFuncsOf qmsW) qmW eC1
        = classifyArg qmW eC1.site (eC1.args.drop 1) ∧
      (eC1.args.drop 1).length = qmW.argCount) :=
  (claim_C1_receiver_offset qmsW cgC1 qmW eC1 (by decide) (by decide)
    (by decide)).1 (by decide)

/-- C2 counterexample: two distinct call sites passing the same constant
text produce that normalized text twice in the constant-queries collection,
so it is not duplicate-free. -/
theorem claim_C2_counterexample :
    FindNonConstCalls cgC2 qmsW = .ok ([], [['q'], ['q']]) ∧
    ¬ (List.Nodup [[('q' : Char)], ['q']]) :=
  ⟨rfl, by decide⟩

/-- C2 (amended): the constant-queries collection is a list with exactly one
entry per surviving edge whose selected argument is constant — duplicates
are retained, one per call site, rather than deduplicated into a set. -/
theorem claim_C2_queries_per_edge (cg : Nat → List Edge)
    (qms : List QueryMethod) (bad : List Nat) (qs : List (List Char))
    (hok : FindNonConstCalls cg qms = .ok (bad, qs)) :
    qs.length = (qms.map fun m =>
      ((survivors (okFuncsOf qms) (cg m.ssa)).filterMap
        (querySel m)).length).sum := by
  obtain ⟨-, hq, -⟩ := FindNonConstCalls_ok hok
  rw [hq, queryRef, List.length_flatten, List.map_map]
  rfl

theorem claim_C2_queries_per_edge_witness :
    ([[('q' : Char)], ['q']] : List (List Char)).length
      = (qmsW.map fun m =>
        ((survivors (okFuncsOf qmsW) (cgC2 m.ssa)).filterMap
          (querySel m)).length).sum :=
  claim_C2_queries_per_edge cgC2 qmsW [] [['q'], ['q']] rfl

/-- C3: in a coherent call graph (the same call instruction always has the
same enclosing function), when the analysis returns a verdict, the call site
of an edge whose calling function is itself a cataloged sink — membership
by exact `ssa.Function` identity in `okFuncs` — never appears in the
unsafe-sites list. -/
theorem claim_C3_forwarding_exclusion (qms : List QueryMethod)
    (cg : Nat → List Edge) (bad : List Nat) (qs : List (List Char))
    (hcoh : ∀ m ∈ qms, ∀ m' ∈ qms, ∀ e ∈ cg m.ssa, ∀ e' ∈ cg m'.ssa,
      e.site = e'.site → e.caller = e'.caller)
    (hok : FindNonConstCalls cg qms = .ok (bad, qs))
    (m : QueryMethod) (e : Edge) (hm : m ∈ qms) (he : e ∈ cg m.ssa)
    (hsink : e.caller ∈ okFuncsOf qms) :
    e.site ∉ bad := by
  obtain ⟨hb, -, -⟩ := FindNonConstCalls_ok hok
  rw [hb, badRef]
  intro hmem
  rw [List.mem_flatten] at hmem
  obtain ⟨s, hs, hsite⟩ := hmem
  obtain ⟨m', hm', rfl⟩ := List.mem_map.mp hs
  obtain ⟨e', he', hsel⟩ := List.mem_filterMap.mp hsite
  obtain ⟨hemem, hdec⟩ := List.mem_filter.mp he'
  have hnc' : e'.caller ∉ okFuncsOf qms := of_decide_eq_true hdec
  have hsite' : e'.site = e.site := by
    unfold badSel at hsel
    cases hv : selArg m' e' with
    | none => rw [hv] at hsel; simp at hsel
    | some v =>
      cases v with
      | const s => rw [hv] at hsel; simp at hsel
      | nonconst i => rw [hv] at hsel; simpa using hsel
  have hcall := hcoh m' hm' m hm e' hemem e he hsite'
  rw [hcall] at hnc'
  exact hnc' hsink

theorem claim_C3_forwarding_exclusion_witness : eC3a.site ∉ ([10] : List Nat) :=
  claim_C3_forwarding_exclusion qmsW cgC3 [10] [] (by decide) rfl qmW eC3a
    (by decide) (by decide) (by decide)

/-- C4: under Go's well-formedness guarantee that the parameters of a
signature have pairwise distinct names, the catalog contains exactly the
methods of the scope such that the declaring type name is exported, the
method is exported, and exactly one declared parameter is named "query"
with string type; the recorded entry carries the declared parameter count
and the index of that parameter.  Methods without such a parameter are
(silently) excluded — the builder has no failure outcome. -/
theorem claim_C4_catalog (scope : List ScopeObj)
    (hnd : ∀ o ∈ scope, ∀ m ∈ o.methods, (m.params.map Param.name).Nodup)
    (qm : QueryMethod) :
    qm ∈ FindQueryMethods scope ↔
      ∃ o ∈ scope, o.exported = true ∧ o.isTypeName = true ∧
        ∃ m ∈ o.methods, m.exported = true ∧
          qm.ssa = m.id ∧ qm.argCount = m.params.length ∧
          (∃ p, m.params[qm.param]? = some p ∧ p.name = "query" ∧
            p.type = GoType.string) ∧
          (∀ j p', m.params[j]? = some p' → p'.name = "query" →
            p'.type = GoType.string → j = qm.param) := by
  rw [FindQueryMethods_mem]
  constructor
  · rintro ⟨o, ho, hexp, htn, m, hm, hex, hfq, hssa, hac⟩
    obtain ⟨p, hp, hn, ht, hfirst⟩ := FuncHasQuery_spec hfq
    refine ⟨o, ho, hexp, htn, m, hm, hex, hssa, hac, ⟨p, hp, hn, ht⟩, ?_⟩
    intro j p' hj hn' ht'
    by_cases hcmp : j < qm.param
    · exact absurd ⟨hn', ht'⟩ (hfirst j hcmp p' hj)
    · by_cases heq : j = qm.param
      · exact heq
      · exfalso
        have hnd' := hnd o ho m hm
        have h1 : (m.params.map Param.name)[qm.param]? = some "query" := by
          rw [List.getElem?_map, hp]
          simp [hn]
        have h2 : (m.params.map Param.name)[j]? = some "query" := by
          rw [List.getElem?_map, hj]
          simp [hn']
        exact heq (nodup_getElem?_inj hnd' h2 h1)
  · rintro ⟨o, ho, hexp, htn, m, hm, hex, hssa, hac, ⟨p, hp, hn, ht⟩, huniq⟩
    refine ⟨o, ho, hexp, htn, m, hm, hex, ?_, hssa, hac⟩
    refine FuncHasQuery_of_first hp hn ht ?_
    rintro j hj q hq ⟨hn', ht'⟩
    have := huniq j q hq hn' ht'
    omega

theorem claim_C4_catalog_witness :
    ∃ o ∈ scopeW, o.exported = true ∧ o.isTypeName = true ∧
      ∃ m ∈ o.methods, m.exported = true ∧
        (⟨3, 1, 0⟩ : QueryMethod).ssa = m.id ∧
        (⟨3, 1, 0⟩ : QueryMethod).argCount = m.params.length ∧
        (∃ p, m.params[(⟨3, 1, 0⟩ : QueryMethod).param]? = some p ∧
          p.name = "query" ∧ p.type = GoType.string) ∧
        (∀ j p', m.params[j]? = some p' → p'.name = "query" →
          p'.type = GoType.string → j = (⟨3, 1, 0⟩ : QueryMethod).param) :=
  (claim_C4_catalog scopeW (by decide) ⟨3, 1, 0⟩).mp (by decide)

/-- C5 counterexample: a unit whose only `main` function takes a parameter
is nonetheless returned by `FindMains`, which checks only the name. -/
theorem claim_C5_counterexample :
    FindMains [pkgC5] = [pkgC5] ∧
    ¬ ∃ f ∈ pkgC5.funcs, f.name = "main" ∧ f.paramCount = 0 :=
  ⟨rfl, by decide⟩

/-- C5 (amended): `FindMains` returns exactly the subset of the
initially-requested units that define a package-level function named
"main", regardless of that function's declared parameters. -/
theorem claim_C5_mains (ips : List Pkg) (p : Pkg) :
    p ∈ FindMains ips ↔ p ∈ ips ∧ ∃ f ∈ p.funcs, f.name = "main" := by
  rw [FindMains, List.mem_filter]
  constructor
  · rintro ⟨hp, hany⟩
    refine ⟨hp, ?_⟩
    obtain ⟨f, hf, hname⟩ := List.any_eq_true.mp hany
    exact ⟨f, hf, of_decide_eq_true hname⟩
  · rintro ⟨hp, f, hf, hname⟩
    exact ⟨hp, List.any_eq_true.mpr ⟨f, hf, decide_eq_true hname⟩⟩

/-- C6: when the analysis returns a verdict, the unsafe-sites list and the
constant-queries list are exactly the two reference projections of the
surviving edges — a site for each non-constant selected argument, the
normalized text for each constant one, in catalog order then edge order —
and their lengths sum to the number of surviving edges, so every surviving
edge contributes to exactly one of the two disjoint collections. -/
theorem claim_C6_classification (cg : Nat → List Edge)
    (qms : List QueryMethod) (bad : List Nat) (qs : List (List Char))
    (hok : FindNonConstCalls cg qms = .ok (bad, qs)) :
    bad = badRef (okFuncsOf qms) cg qms ∧
    qs = queryRef (okFuncsOf qms) cg qms ∧
    bad.length + qs.length
      = (qms.map fun m =>
          (survivors (okFuncsOf qms) (cg m.ssa)).length).sum := by
  obtain ⟨hb, hq, hall⟩ := FindNonConstCalls_ok hok
  refine ⟨hb, hq, ?_⟩
  rw [hb, hq]
  exact refs_length_sum qms (fun m hm e he hnc => (hall m hm e he hnc).2)

theorem claim_C6_classification_witness :
    ([2] : List Nat) = badRef (okFuncsOf qmsW) cgC6 qmsW ∧
    ([[('a' : Char)]] : List (List Char))
      = queryRef (okFuncsOf qmsW) cgC6 qmsW ∧
    ([2] : List Nat).length + ([[('a' : Char)]] : List (List Char)).length
      = (qmsW.map fun m =>
          (survivors (okFuncsOf qmsW) (cgC6 m.ssa)).length).sum :=
  claim_C6_classification cgC6 qmsW [2] [['a']] rfl

/-- C7: the whitespace normalization applied to constant query texts —
replace every maximal run of the class and escape-sequence alternatives of
`whitespaceRegexp` by one space, then trim — is idempotent, and the text
`"SELECT  *\n  FROM t"` (as printed by `ExactString`, quotes included)
normalizes to `SELECT * FROM t`. -/
theorem claim_C7_normalization_idempotent :
    (∀ s : List Char, cleanQuery (cleanQuery s) = cleanQuery s) ∧
    cleanQuery ("\"SELECT  *\\n  FROM t\"").toList
      = ("SELECT * FROM t").toList :=
  ⟨cleanQuery_idem, by decide⟩

/-- C8: the analysis is a deterministic function of the sink catalog and of
the incoming-edge lists of the catalog's call-graph nodes: two graphs that
agree on every cataloged node produce identical verdicts — same unsafe
sites, same normalized constant texts, in the same order. -/
theorem claim_C8_deterministic (cg₁ cg₂ : Nat → List Edge)
    (qms : List QueryMethod)
    (hagree : ∀ m ∈ qms, cg₁ m.ssa = cg₂ m.ssa) :
    FindNonConstCalls cg₁ qms = FindNonConstCalls cg₂ qms :=
  walkCatalog_agree qms hagree

theorem claim_C8_deterministic_witness :
    FindNonConstCalls cgC8a qmsW = FindNonConstCalls cgC8b qmsW :=
  claim_C8_deterministic cgC8a cgC8b qmsW (by decide)

/-- C9: every catalog entry produced by `FindQueryMethods` has its sensitive
parameter index strictly below its recorded parameter count, and
consequently a run of `FindNonConstCalls` over such a catalog can only fail
with the arity-mismatch panic — the selection of the sensitive argument
itself never reads out of bounds on any non-aborting path. -/
theorem claim_C9_no_oob (scope : List ScopeObj) (cg : Nat → List Edge) :
    (∀ qm ∈ FindQueryMethods scope, qm.param < qm.argCount) ∧
    (∀ msg, FindNonConstCalls cg (FindQueryMethods scope) = .error msg →
      msg = "arg count mismatch") := by
  refine ⟨fun qm h => FindQueryMethods_param_lt h, ?_⟩
  intro msg h
  exact walkCatalog_error_msg (fun m hm => FindQueryMethods_param_lt hm) h

theorem claim_C9_no_oob_witness :
    ((⟨3, 1, 0⟩ : QueryMethod).param < (⟨3, 1, 0⟩ : QueryMethod).argCount) ∧
    ("arg count mismatch" : String) = "arg count mismatch" :=
  ⟨(claim_C9_no_oob scopeW cgC9).1 ⟨3, 1, 0⟩ (by decide),
    (claim_C9_no_oob scopeW cgC9).2 "arg count mismatch" rfl⟩

/-- C10 counterexample: a skipped (sink-to-sink) edge passing the constant
`'q'` does not make that text absent from the constant-queries collection —
a surviving edge passing the same constant still contributes it. -/
theorem claim_C10_counterexample :
    ¬ (∀ (cg : Nat → List Edge) (qms : List QueryMethod) (bad : List Nat)
        (qs : List (List Char)) (e : Edge) (t : List Char),
        FindNonConstCalls cg qms = .ok (bad, qs) →
        (∃ m ∈ qms, e ∈ cg m.ssa) → e.caller ∈ okFuncsOf qms →
        Value.const t ∈ e.args → cleanQuery t ∉ qs) := by
  intro hclaim
  exact hclaim cgC10 qmsW [] [cleanQuery ['q']] eC10a ['q'] rfl
    ⟨qmW, by decide, by decide⟩ (by decide) (by decide)
    (List.mem_singleton.mpr rfl)

/-- C10 (amended): a forwarding-excluded edge contributes to neither output
collection: deleting such an edge from its node's incoming-edge list leaves
the whole verdict — both the unsafe sites and the constant queries —
unchanged. -/
theorem claim_C10_no_contribution (qms : List QueryMethod)
    (cg cg' : Nat → List Edge) (f : Nat) (e : Edge) (l₁ l₂ : List Edge)
    (hf' : cg' f = l₁ ++ e :: l₂) (hf : cg f = l₁ ++ l₂)
    (hother : ∀ g, g ≠ f → cg' g = cg g)
    (hskip : e.caller ∈ okFuncsOf qms) :
    FindNonConstCalls cg' qms = FindNonConstCalls cg qms :=
  walkCatalog_skip_insert hf' hf hother hskip qms

theorem claim_C10_no_contribution_witness :
    FindNonConstCalls cgC10 qmsW = FindNonConstCalls cgC10' qmsW :=
  claim_C10_no_contribution qmsW cgC10' cgC10 0 eC10a [] [eC10b] rfl rfl
    (fun g hg => by simp [cgC10, cgC10', hg]) (by decide)
